import Mathlib

/-!
Verification of `oscillate` (Discord audio playback library).

This file shallowly embeds the parts of the source that the specification's
claims are about:

* `src/oscillate/queue.py` — `AudioQueue` (put / put_many / get / shuffle /
  add_to_front / duplicate_track / clear / export_state / import_state);
* `src/oscillate/track.py` — `Track` with its `__post_init__` normalization,
  `to_dict` / `from_dict`, and equality by `audio_url`;
* `src/oscillate/filters/base.py` — `FilterChain` (add_filter / remove_filter /
  get_filter / get_combined_args) over abstract per-filter argument fragments;
* `src/oscillate/filters/eq.py` and `src/oscillate/filters/nightcore.py` —
  parameter setters and their validation;
* `src/oscillate/core.py` — `AudioManager.adapt_bitrate`,
  `AudioManager.cache_track`, and `GuildPlayer._finish_track` (queue effect).

Conventions of the embedding:

* Python raising an exception is modelled as `Except String` (the message is
  abbreviated); a method that raises before any attribute assignment leaves
  the object unmodified, which the embedding mirrors by returning `.error`
  without a state.
* `random.shuffle` inside `_regenerate_shuffle_indices` is nondeterministic;
  the embedding passes the freshly generated permutation as an explicit
  parameter `p`.  Theorems that depend on it carry the validity hypothesis
  `p.Perm (List.range n)` that `random.shuffle` guarantees.
* Python numbers used by the filters are exact decimals compared with exact
  constants, so they are modelled as `Rat`; queue counters are `Nat`.
* `asyncio.Lock` acquisition is erased in the per-operation bodies (they run
  under the queue's single lock), except where a body itself awaits another
  lock-taking coroutine: that nesting is modelled explicitly (see
  `importStateQ`), since `asyncio.Lock` is not reentrant.
-/

namespace Oscillate

/-- `LoopMode` enumeration from `queue.py` (`none` / `single` / `queue`). -/
inductive LoopMode where
  | lmNone
  | lmSingle
  | lmQueue
  deriving Repr, DecidableEq

/-- The requester identity a `Track` carries (id + display name), as used by
`Track.requester_id` / `Track.requester_name`. -/
structure Requester where
  id : Option Int
  name : String
  deriving Repr, DecidableEq

/-- `Track` from `track.py`: the serializable fields.  `metadata` is an opaque
key-value map (deep-copied on clone/serialize, hence plain values here). -/
structure Track where
  title : String
  audio_url : String
  webpage_url : Option String
  duration : Option Int
  uploader : Option String
  thumbnail : Option String
  requester : Option Requester
  added_at : Rat
  play_count : Nat
  metadata : List (String × String)
  deriving Repr, DecidableEq

instance : Inhabited Track :=
  ⟨⟨"", "", none, none, none, none, none, 0, 0, []⟩⟩

/-- Python `Track.__eq__`: equality is solely by `audio_url`. -/
def Track.sameUrl (a b : Track) : Bool :=
  a.audio_url == b.audio_url

/-- `Track.increment_play_count`. -/
def incPlay (t : Track) : Track :=
  { t with play_count := t.play_count + 1 }

/-- `Track.clone`: a value copy (the deep copy of `metadata` is value-equal). -/
def Track.clone (t : Track) : Track := t

/-- The dictionary produced by `Track.to_dict` (all keys always present). -/
structure TrackDict where
  title : String
  audio_url : String
  webpage_url : Option String
  duration : Option Int
  uploader : Option String
  thumbnail : Option String
  requester_id : Option Int
  requester_name : String
  added_at : Rat
  play_count : Nat
  metadata : List (String × String)
  deriving Repr, DecidableEq

/-- `Track.to_dict`.  `requester_id` / `requester_name` are the property
values: `None` / `"Unknown"` when there is no requester. -/
def Track.toDict (t : Track) : TrackDict where
  title := t.title
  audio_url := t.audio_url
  webpage_url := t.webpage_url
  duration := t.duration
  uploader := t.uploader
  thumbnail := t.thumbnail
  requester_id := t.requester.bind (fun r => r.id)
  requester_name := match t.requester with
    | none => "Unknown"
    | some r => r.name
  added_at := t.added_at
  play_count := t.play_count
  metadata := t.metadata

/-- `Track.from_dict` with no `bot` (how `AudioQueue.import_state` calls it):
a truthy `requester_name` yields a `SimpleRequester`, then the dataclass
constructor runs `__post_init__` (empty title normalized, empty `audio_url`
raises `ValueError`, non-positive duration dropped). -/
def Track.fromDict (d : TrackDict) : Except String Track :=
  if d.audio_url = "" then .error "audio_url is required"
  else .ok
    { title := if d.title = "" then "Unknown Track" else d.title
      audio_url := d.audio_url
      webpage_url := d.webpage_url
      duration := match d.duration with
        | some x => if x ≤ 0 then none else some x
        | none => none
      uploader := d.uploader
      thumbnail := d.thumbnail
      requester := if d.requester_name = "" then none
        else some ⟨d.requester_id, d.requester_name⟩
      added_at := d.added_at
      play_count := d.play_count
      metadata := d.metadata }

/-- The mutable state of an `AudioQueue`.  `queue` lists tracks front-first
(`asyncio.Queue` FIFO: `get` pops the head, `put` appends at the tail);
`history` is the deque, oldest first, bounded by `historySize`. -/
structure AQ where
  queue : List Track
  history : List Track
  shuffleIndices : List Nat
  shufflePos : Nat
  maxSize : Nat
  historySize : Nat
  shuffle : Bool
  loopMode : LoopMode
  totalAdded : Nat
  totalPlayed : Nat
  deriving Repr, DecidableEq

/-- A fresh `AudioQueue(max_size, history_size, shuffle, loop_mode)`. -/
def AQ.fresh (maxSize : Nat := 1000) (historySize : Nat := 50)
    (shuffle : Bool := false) (loopMode : LoopMode := .lmNone) : AQ where
  queue := []
  history := []
  shuffleIndices := []
  shufflePos := 0
  maxSize := maxSize
  historySize := historySize
  shuffle := shuffle
  loopMode := loopMode
  totalAdded := 0
  totalPlayed := 0

/-- `AudioQueue._regenerate_shuffle_indices`, with the shuffled
`list(range(qsize))` supplied as the parameter `p`. -/
def regen (p : List Nat) (st : AQ) : AQ :=
  { st with shuffleIndices := p, shufflePos := 0 }

/-- Append to the history deque (`deque(maxlen=history_size)`): appending when
full discards the oldest (leftmost) element. -/
def pushHistory (t : Track) (st : AQ) : AQ :=
  let h := st.history ++ [t]
  { st with history := if st.historySize < h.length then h.tail else h }

/-- `AudioQueue._get_shuffled`.  Returns the removed track (before the play
count bump happens in `get`) and the updated state.  The parameter `p` is the
permutation `random.shuffle` would produce if a regeneration occurs here. -/
def getShuffled (p : List Nat) (st : AQ) : Option Track × AQ :=
  let st1 := if st.shuffleIndices.isEmpty then regen p st else st
  if st1.shuffleIndices.length ≤ st1.shufflePos then
    if st1.loopMode = .lmQueue then
      getShuffledCore (regen p { st1 with shufflePos := 0 })
    else (none, st1)
  else getShuffledCore st1
where
  /-- The tail of `_get_shuffled` after the cursor-exhaustion branch. -/
  getShuffledCore (st2 : AQ) : Option Track × AQ :=
    let ql := st2.queue
    if ql.isEmpty then (none, st2)
    else
      let idx := st2.shuffleIndices.getD st2.shufflePos 0
      if ql.length ≤ idx then (none, st2)
      else
        let track := ql.getD idx default
        if ql.any (fun x => x.sameUrl track) then
          (some track,
            { st2 with
              queue := st2.queue.eraseP (fun x => x.sameUrl track)
              shufflePos := st2.shufflePos + 1 })
        else (none, st2)

/-- `AudioQueue.get`.  Returns `none` on an empty queue; otherwise dequeues
per mode, bumps the dequeued track's play count, appends it to history,
increments `total_played`, and — only for loop mode `single` — immediately
re-enqueues the track (at the tail, since `asyncio.Queue.put` appends). -/
def getQ (p : List Nat) (st : AQ) : Option Track × AQ :=
  if st.queue.isEmpty then (none, st)
  else
    let r := if st.shuffle then getShuffled p st
             else (st.queue.head?, { st with queue := st.queue.tail })
    match r with
    | (none, st1) => (none, st1)
    | (some t, st1) =>
      let t' := incPlay t
      let st2 := pushHistory t' { st1 with totalPlayed := st1.totalPlayed + 1 }
      let st3 := if st2.loopMode = .lmSingle
                 then { st2 with queue := st2.queue ++ [t'] } else st2
      (some t', st3)

/-- `AudioQueue.put`: raises `QueueError` when the queue is already at
capacity, before mutating anything. -/
def putQ (p : List Nat) (t : Track) (st : AQ) : Except String AQ :=
  if st.maxSize ≤ st.queue.length then .error "Queue is full"
  else
    let st1 := { st with queue := st.queue ++ [t], totalAdded := st.totalAdded + 1 }
    .ok (if st1.shuffle then regen p st1 else st1)

/-- `AudioQueue.put_many`: raises `QueueError` when adding all the tracks
would exceed capacity, before mutating anything. -/
def putMany (p : List Nat) (ts : List Track) (st : AQ) : Except String AQ :=
  if st.maxSize < st.queue.length + ts.length then .error "Cannot add tracks, would exceed limit"
  else
    let st1 := { st with queue := st.queue ++ ts, totalAdded := st.totalAdded + ts.length }
    .ok (if st1.shuffle then regen p st1 else st1)

/-- `AudioQueue.add_to_front`: capacity check first, then insert at index 0. -/
def addToFront (p : List Nat) (t : Track) (st : AQ) : Except String AQ :=
  if st.maxSize ≤ st.queue.length then .error "Queue is full"
  else
    let st1 := { st with queue := t :: st.queue, totalAdded := st.totalAdded + 1 }
    .ok (if st1.shuffle then regen p st1 else st1)

/-- `AudioQueue.duplicate_track`: negative index normalization, index bounds
check, capacity check, then a clone is inserted right after the original. -/
def duplicateTrack (p : List Nat) (index : Int) (st : AQ) : Except String AQ :=
  let n := st.queue.length
  let i := if index < 0 then index + n else index
  if ¬ (0 ≤ i ∧ i < n) then .error "Index out of range"
  else if st.maxSize ≤ n then .error "Queue is full"
  else
    let iN := i.toNat
    let tr := (st.queue.getD iN default).clone
    let st1 := { st with
      queue := st.queue.take (iN + 1) ++ [tr] ++ st.queue.drop (iN + 1)
      totalAdded := st.totalAdded + 1 }
    .ok (if st1.shuffle then regen p st1 else st1)

/-- The body of `AudioQueue.clear`: empties the queue and the shuffle
permutation (history and counters are kept). -/
def clearQ (st : AQ) : AQ :=
  { st with queue := [], shuffleIndices := [], shufflePos := 0 }

/-- The snapshot produced by `AudioQueue.export_state`. -/
structure ExportState where
  tracks : List TrackDict
  history : List TrackDict
  shuffle : Bool
  loop_mode : LoopMode
  shuffle_indices : List Nat
  shuffle_position : Nat
  total_added : Nat
  total_played : Nat
  timestamp : Rat
  deriving Repr, DecidableEq

/-- `AudioQueue.export_state` (the wall-clock `time.time()` is the parameter
`now`). -/
def exportStateQ (now : Rat) (st : AQ) : ExportState where
  tracks := st.queue.map Track.toDict
  history := st.history.map Track.toDict
  shuffle := st.shuffle
  loop_mode := st.loopMode
  shuffle_indices := st.shuffleIndices
  shuffle_position := st.shufflePos
  total_added := st.totalAdded
  total_played := st.totalPlayed
  timestamp := now

/-- One `deque.append` on a deque with `maxlen = cap`. -/
def deqAppend (cap : Nat) (h : List Track) (t : Track) : List Track :=
  let h' := h ++ [t]
  if cap < h'.length then h'.tail else h'

/-- The statements of `AudioQueue.import_state` after its first
`await self.clear()`: clear, restore the track list and the history
(re-appended into the bounded deque), then the flags, permutation and
counters; the text performs no `max_size` check.  This code is UNREACHABLE
in the program: `import_state` deadlocks on the nested lock acquisition
inside `clear()` before any of it runs (see `importStateQ`, which reaches
this body only through a second lock acquisition that never succeeds), so no
theorem may treat its output as a state the program produces.  `p` is the
permutation for the trailing regeneration (shuffle on with an empty imported
permutation). -/
def importBody (p : List Nat) (s : ExportState) (st : AQ) : Except String AQ :=
  let st0 := clearQ st
  match s.tracks.mapM Track.fromDict with
  | .error e => .error e
  | .ok ts =>
    match s.history.mapM Track.fromDict with
    | .error e => .error e
    | .ok hs =>
      let st1 := { st0 with
        queue := ts
        history := hs.foldl (deqAppend st0.historySize) []
        shuffle := s.shuffle
        loopMode := s.loop_mode
        shuffleIndices := s.shuffle_indices
        shufflePos := s.shuffle_position
        totalAdded := s.total_added
        totalPlayed := s.total_played }
      .ok (if st1.shuffle ∧ st1.shuffleIndices.isEmpty then regen p st1 else st1)

/-- One acquisition of an `asyncio.Lock` by the running task: `none` means the
task blocks forever (`asyncio.Lock` is not reentrant, so a second acquisition
by the holder never completes). -/
def lockAcquire (held : Bool) : Option Bool :=
  if held then none else some true

/-- `AudioQueue.import_state` with its lock discipline made explicit: the
method enters `async with self._lock` (lock initially free), and its first
statement is `await self.clear()`, where `clear` itself enters
`async with self._lock` — a second acquisition of the same non-reentrant
lock by the same task. -/
def importStateQ (p : List Nat) (s : ExportState) (st : AQ) :
    Option (Except String AQ) :=
  match lockAcquire false with
  | none => none
  | some _ =>
    match lockAcquire true with
    | none => none
    | some _ => some (importBody p s st)

/-- The queue effect of `GuildPlayer._finish_track` (`core.py`): when a track
finished without error and loop mode is `single` or `queue`, the player calls
`self.queue.put(prev_track)` — an ordinary tail append (which can itself raise
`QueueError` if the queue is full). -/
def finishTrack (p : List Nat) (prevTrack : Option Track) (exc : Bool)
    (st : AQ) : Except String AQ :=
  match prevTrack with
  | some t =>
    if ¬ exc ∧ (st.loopMode = .lmSingle ∨ st.loopMode = .lmQueue)
    then putQ p t st
    else .ok st
  | none => .ok st

/-- `n` successive calls of `AudioQueue.get` (each with permutation oracle
`p`), collecting the returned values. -/
def getsN (p : List Nat) : Nat → AQ → List (Option Track) × AQ
  | 0, st => ([], st)
  | n + 1, st =>
    let r := getQ p st
    let rest := getsN p n r.2
    (r.1 :: rest.1, rest.2)

/-- The argument dictionary a single filter's `get_ffmpeg_args` may return
(`before_options`, `options`, `af` keys). -/
structure FilterArgs where
  before_options : Option String := none
  options : Option String := none
  af : Option String := none
  deriving Repr, DecidableEq

/-- Python truthiness of `args.get(key)`: present and a non-empty string. -/
def strTruthy : Option String → Bool
  | some s => s != ""
  | none => false

/-- Python `sep.join(parts)`. -/
def pyJoin (sep : String) : List String → String
  | [] => ""
  | [s] => s
  | s :: rest => s ++ sep ++ pyJoin sep rest

/-- A filter as the chain sees it: identity, enabled flag, priority, and the
arguments its `get_ffmpeg_args` produces while enabled (the chain skips
disabled filters before ever calling `get_ffmpeg_args`). -/
structure Filter where
  name : String
  enabled : Bool
  priority : Int
  args : FilterArgs
  deriving Repr, DecidableEq

/-- Stable ascending insertion by `priority` (an element goes after all
already-placed elements of equal priority, like Python's stable `list.sort`). -/
def insertF (f : Filter) : List Filter → List Filter
  | [] => [f]
  | g :: gs => if g.priority ≤ f.priority then g :: insertF f gs else f :: g :: gs

/-- `FilterChain._sort_filters`: Python's stable `sort(key=priority)`,
realized as a stable insertion sort (stable ascending sorts agree). -/
def sortFilters (l : List Filter) : List Filter :=
  l.foldl (fun acc f => insertF f acc) []

/-- `FilterChain.remove_filter`: drops the first filter with the given name. -/
def removeF (n : String) : List Filter → List Filter
  | [] => []
  | g :: gs => if g.name == n then gs else g :: removeF n gs

/-- `FilterChain.add_filter`: remove any filter of the same name, append the
new one, and re-sort by priority (the `isinstance` guard and
`validate_params` call never fail for the well-formed filters modelled
here). -/
def addFilter (f : Filter) (chain : List Filter) : List Filter :=
  sortFilters (removeF f.name chain ++ [f])

/-- `FilterChain.get_filter`: first filter with the given name. -/
def getFilter (n : String) (chain : List Filter) : Option Filter :=
  chain.find? (fun f => f.name == n)

/-- The combined dictionary `FilterChain.get_combined_args` returns (only the
`before_options` / `options` keys can be present). -/
structure CombinedArgs where
  before_options : Option String := none
  options : Option String := none
  deriving Repr, DecidableEq

/-- `FilterChain.get_combined_args`: walk the (priority-sorted) chain, skip
disabled filters, collect truthy `before_options` / `options` / `af`
fragments in chain order; join `before_options` with spaces, and build
`options` from the option fragments followed by one `-af` argument joining
the audio-filter fragments with commas. -/
def getCombinedArgs (chain : List Filter) : CombinedArgs :=
  let en := chain.filter (fun f => f.enabled)
  let befores := (en.filter (fun f => strTruthy f.args.before_options)).map
    (fun f => f.args.before_options.getD "")
  let opts := (en.filter (fun f => strTruthy f.args.options)).map
    (fun f => f.args.options.getD "")
  let afs := (en.filter (fun f => strTruthy f.args.af)).map
    (fun f => f.args.af.getD "")
  { before_options := if befores.isEmpty then none else some (pyJoin " " befores)
    options :=
      if opts.isEmpty ∧ afs.isEmpty then none
      else some (pyJoin " "
        (opts ++ if afs.isEmpty then [] else ["-af " ++ pyJoin "," afs])) }

/-- `Nightcore` filter state (`filters/nightcore.py`): pitch/tempo as exact
rationals. -/
structure Nightcore where
  name : String
  enabled : Bool
  priority : Int
  pitch : Rat
  tempo : Rat
  preserve_formants : Bool
  deriving Repr, DecidableEq

/-- `Nightcore.validate_params`: pitch then tempo must lie in [0.5, 2.0]. -/
def Nightcore.validate (f : Nightcore) : Except String Unit :=
  if ¬ ((1 : Rat) / 2 ≤ f.pitch ∧ f.pitch ≤ 2) then .error "Pitch out of range"
  else if ¬ ((1 : Rat) / 2 ≤ f.tempo ∧ f.tempo ≤ 2) then .error "Tempo out of range"
  else .ok ()

/-- `Nightcore.set_pitch`: the assignment `self.pitch = pitch` happens first,
then `validate_params` runs (and may raise).  The pair is (validation
result, filter state after the call) — on failure the new pitch stays. -/
def Nightcore.setPitch (v : Rat) (f : Nightcore) : Except String Unit × Nightcore :=
  let f' := { f with pitch := v }
  (f'.validate, f')

/-- `Nightcore.set_tempo`: same mutate-then-validate shape as `set_pitch`. -/
def Nightcore.setTempo (v : Rat) (f : Nightcore) : Except String Unit × Nightcore :=
  let f' := { f with tempo := v }
  (f'.validate, f')

/-- The default `Nightcore()` (pitch 1.2, tempo 1.15, priority 20). -/
def Nightcore.default : Nightcore where
  name := "nightcore"
  enabled := true
  priority := 20
  pitch := 6 / 5
  tempo := 23 / 20
  preserve_formants := true

/-- Set the first binding of `k` in a Python-dict association list, else
append (`self._frequency_gains[frequency] = gain`). -/
def dictSet (k : Int) (v : Rat) : List (Int × Rat) → List (Int × Rat)
  | [] => [(k, v)]
  | (k', v') :: rest =>
    if k' == k then (k, v) :: rest else (k', v') :: dictSet k v rest

/-- Lookup the first binding of `k`. -/
def dictGet (k : Int) : List (Int × Rat) → Option Rat
  | [] => none
  | (k', v') :: rest => if k' == k then some v' else dictGet k rest

/-- `Equalizer` filter state (`filters/eq.py`): the frequency→gain dict as an
insertion-ordered association list. -/
structure Equalizer where
  name : String
  enabled : Bool
  priority : Int
  gains : List (Int × Rat)
  deriving Repr, DecidableEq

/-- `Equalizer.validate_params`: every entry must have a positive frequency
and a gain in [-20, 20] dB; the first offending entry raises. -/
def validateGains : List (Int × Rat) → Except String Unit
  | [] => .ok ()
  | (freq, gain) :: rest =>
    if freq ≤ 0 then .error "Invalid frequency"
    else if gain < -20 ∨ 20 < gain then .error "Gain out of range"
    else validateGains rest

/-- `Equalizer.set_band`: the dict assignment happens first, then
`validate_params` runs over all entries (and may raise); on failure the new
gain stays in the dict. -/
def Equalizer.setBand (freq : Int) (gain : Rat) (e : Equalizer) :
    Except String Unit × Equalizer :=
  let e' := { e with gains := dictSet freq gain e.gains }
  (validateGains e'.gains, e')

/-- `AudioManager.adapt_bitrate`: with metrics enabled, the shared bitrate
becomes 128000 when `streams_active > max(1, max_ffmpeg_procs // 2)`, else
256000 (without metrics the condition is falsy and 256000 is set). -/
def adaptBitrate (metricsEnabled : Bool) (maxFfmpegProcs streamsActive : Nat) : Nat :=
  if metricsEnabled ∧ Nat.max 1 (maxFfmpegProcs / 2) < streamsActive
  then 128000 else 256000

/-- One cache entry of `AudioManager._cache` (`entry = {"track": ..., "meta": ...}`). -/
structure CacheEntry where
  track : TrackDict
  meta : List (String × String)
  deriving Repr, DecidableEq

/-- The cache part of an `AudioManager`: the key→entry dict (insertion
ordered), the eviction order list `_cache_order`, and the capacity. -/
structure CacheState where
  cache : List (String × CacheEntry)
  order : List String
  cacheSize : Nat
  deriving Repr, DecidableEq

/-- `track.webpage_url or track.audio_url or track.title`: Python `or` skips
`None` and empty strings alike. -/
def canonicalKey (t : Track) : String :=
  let w := match t.webpage_url with
    | some s => s
    | none => ""
  if w ≠ "" then w
  else if t.audio_url ≠ "" then t.audio_url
  else t.title

/-- The trim loop of `cache_track`
(`while len(order) > cache_size: pop order[0]; cache.pop(old)`), with explicit
fuel bounding the iteration count. -/
def trimCache : Nat → CacheState → CacheState
  | 0, st => st
  | fuel + 1, st =>
    if st.cacheSize < st.order.length then
      match st.order with
      | [] => st
      | k :: rest =>
        trimCache fuel
          { st with order := rest, cache := st.cache.eraseP (fun kv => kv.1 == k) }
    else st

/-- `AudioManager.cache_track`: a present key returns immediately (a metrics
cache-hit is recorded elsewhere; the cache itself is untouched); a fresh key
is appended to the dict and to the eviction order, then the cache is trimmed
from the front of the order list down to capacity. -/
def cacheTrack (t : Track) (extra : List (String × String)) (st : CacheState) :
    CacheState :=
  let key := canonicalKey t
  if st.cache.any (fun kv => kv.1 == key) then st
  else
    let st1 := { st with
      cache := st.cache ++ [(key, ⟨t.toDict, extra⟩)]
      order := st.order ++ [key] }
    trimCache st1.order.length st1

/-! ### Sample data for concrete evaluations -/

/-- A concrete track with the given audio URL (as built by the `Track`
dataclass constructor: non-empty title and URL, positive duration). -/
def mkSample (url : String) : Track where
  title := "title " ++ url
  audio_url := url
  webpage_url := none
  duration := some 100
  uploader := none
  thumbnail := none
  requester := none
  added_at := 0
  play_count := 0
  metadata := []

def tA : Track := mkSample "urlA"

def tB : Track := mkSample "urlB"

def tC : Track := mkSample "urlC"

end Oscillate

namespace Oscillate

/-! ### Theorems -/

/-- C8: with loop mode `none` and shuffle off, `put` fails with `QueueError`
exactly when the resulting size would exceed `max_size`, `get` is FIFO, and
`get` on an empty queue returns `none`; concretely with `max_size = 2`,
`put(A)` and `put(B)` succeed, `put(C)` fails, then `get` yields `A`, `B`,
`none` (the returned tracks carry the play-count bump `get` applies; Python
track equality is by `audio_url`). -/
theorem claim8_fifo_order_and_capacity :
    (∀ (p : List Nat) (st : AQ), st.loopMode = .lmNone → st.shuffle = false →
      (st.queue = [] → getQ p st = (none, st)) ∧
      (∀ t rest, st.queue = t :: rest →
        (getQ p st).1 = some (incPlay t) ∧ (getQ p st).2.queue = rest) ∧
      (∀ t, st.queue.length < st.maxSize →
        putQ p t st =
          .ok { st with queue := st.queue ++ [t], totalAdded := st.totalAdded + 1 }) ∧
      (∀ t, st.maxSize ≤ st.queue.length → putQ p t st = .error "Queue is full")) ∧
    (∃ st1 st2, putQ [] tA (AQ.fresh 2) = .ok st1 ∧ putQ [] tB st1 = .ok st2 ∧
      putQ [] tC st2 = .error "Queue is full" ∧
      (getQ [] st2).1 = some (incPlay tA) ∧
      (getQ [] (getQ [] st2).2).1 = some (incPlay tB) ∧
      getQ [] (getQ [] (getQ [] st2).2).2 = (none, (getQ [] (getQ [] st2).2).2)) := by
  constructor
  · intro p st hloop hshuf
    refine ⟨?_, ?_, ?_, ?_⟩
    · intro hq
      simp [getQ, hq]
    · intro t rest hq
      simp [getQ, hq, hshuf, pushHistory, hloop]
    · intro t hlt
      simp [putQ, Nat.not_le.mpr hlt, hshuf]
    · intro t hle
      simp [putQ, hle]
  · exact ⟨_, _, rfl, rfl, rfl, rfl, rfl, rfl⟩

/-- Witness for the quantified part of `claim8_fifo_order_and_capacity`,
at a concrete two-track FIFO queue. -/
theorem claim8_witness :
    (getQ [] { AQ.fresh 5 with queue := [tA, tB] }).1 = some (incPlay tA) ∧
    (getQ [] { AQ.fresh 5 with queue := [tA, tB] }).2.queue = [tB] :=
  (claim8_fifo_order_and_capacity.1 [] { AQ.fresh 5 with queue := [tA, tB] }
    rfl rfl).2.1 tA [tB] rfl

/-- C1 (counterexample): the claim "a successful get() re-inserts the
dequeued track — at the front for `single`, at the tail for `queue` — so the
queue size is unchanged" fails: in loop mode `queue`, `get` on the one-track
queue `[A]` succeeds but leaves the queue empty (size 1 → 0, nothing
re-inserted), and in loop mode `single`, `get` on `[A, B]` re-inserts `A` at
the tail, yielding `[B, A]`, not at the front. -/
theorem claim1_counterexample :
    ((getQ [] { AQ.fresh 10 with queue := [tA], loopMode := .lmQueue }).1 =
        some (incPlay tA) ∧
      (getQ [] { AQ.fresh 10 with queue := [tA], loopMode := .lmQueue }).2.queue = []) ∧
    (getQ [] { AQ.fresh 10 with queue := [tA, tB], loopMode := .lmSingle }).2.queue =
      [tB, incPlay tA] :=
  ⟨⟨rfl, rfl⟩, rfl⟩

/-- Erasing by a predicate some element satisfies removes exactly one
element. -/
theorem length_eraseP_of_any (q : Track → Bool) :
    ∀ l : List Track, l.any q = true → (l.eraseP q).length + 1 = l.length := by
  intro l
  induction l with
  | nil => simp
  | cons x xs ih =>
    intro h
    by_cases hx : q x
    · simp [List.eraseP_cons, hx]
    · simp only [List.any_cons, hx, Bool.false_or] at h
      have hih := ih h
      simp [List.eraseP_cons, hx]
      omega

/-- A successful inner `_get_shuffled` step removes exactly one track from
the queue (the `list.remove` call) and touches neither the loop mode nor the
queue contents otherwise. -/
theorem getShuffledCore_some (st2 : AQ) (t : Track) (st' : AQ)
    (h : getShuffled.getShuffledCore st2 = (some t, st')) :
    st'.queue.length + 1 = st2.queue.length ∧ st'.loopMode = st2.loopMode := by
  unfold getShuffled.getShuffledCore at h
  dsimp only at h
  split at h
  · simp at h
  · split at h
    · simp at h
    · split at h
      · rename_i hany
        have hs := congrArg Prod.snd h
        dsimp at hs
        subst hs
        exact ⟨length_eraseP_of_any _ _ hany, rfl⟩
      · simp at h

/-- A successful `_get_shuffled` call removes exactly one track from the
queue and preserves the loop mode (regenerations touch only the permutation
and cursor). -/
theorem getShuffled_some (p : List Nat) (st : AQ) (t : Track) (st1 : AQ)
    (h : getShuffled p st = (some t, st1)) :
    st1.queue.length + 1 = st.queue.length ∧ st1.loopMode = st.loopMode := by
  unfold getShuffled at h
  dsimp only at h
  split at h
  all_goals
    split at h
    · split at h
      · have hc := getShuffledCore_some _ _ _ h
        simpa [regen] using hc
      · simp at h
    · have hc := getShuffledCore_some _ _ _ h
      simpa [regen] using hc

/-- C1 (amended): a successful `get()` re-inserts the dequeued track only
when loop mode is `single`, and then at the *tail* (`asyncio.Queue.put`
appends), so the queue size is unchanged exactly in that mode; with loop
mode `queue` the track is not re-inserted by `get` — the queue shrinks by
one, and the track is re-enqueued at the tail by the player's
track-completion handler `_finish_track` via `queue.put`.  This holds for
shuffle on and off alike. -/
theorem claim1_loop_reinsertion_amended :
    (∀ (p : List Nat) (st : AQ) (t : Track),
      (getQ p st).1 = some t →
      (st.loopMode = .lmSingle →
        (getQ p st).2.queue.length = st.queue.length ∧
        (getQ p st).2.queue.getLast? = some t) ∧
      (st.loopMode = .lmQueue →
        (getQ p st).2.queue.length + 1 = st.queue.length)) ∧
    (∀ (p : List Nat) (t : Track) (st : AQ),
      st.loopMode = .lmSingle ∨ st.loopMode = .lmQueue →
      st.queue.length < st.maxSize →
      ∃ st', finishTrack p (some t) false st = .ok st' ∧
        st'.queue = st.queue ++ [t]) := by
  constructor
  · intro p st t h
    by_cases hemp : st.queue.isEmpty = true
    · rw [getQ, if_pos hemp] at h
      simp at h
    · cases hshuffle : st.shuffle with
      | false =>
        obtain ⟨hd, tl, hq⟩ : ∃ hd tl, st.queue = hd :: tl := by
          cases hqq : st.queue with
          | nil => rw [hqq] at hemp; simp at hemp
          | cons hd tl => exact ⟨hd, tl, rfl⟩
        have h1 : (getQ p st).1 = some (incPlay hd) := by
          simp [getQ, hq, hshuffle, pushHistory]
        rw [h1] at h
        obtain rfl := Option.some.inj h
        constructor
        · intro hl
          have h2 : (getQ p st).2.queue = tl ++ [incPlay hd] := by
            simp [getQ, hq, hshuffle, hl, pushHistory]
          rw [h2, hq]
          exact ⟨by simp, List.getLast?_concat tl⟩
        · intro hl
          have h2 : (getQ p st).2.queue = tl := by
            simp [getQ, hq, hshuffle, hl, pushHistory]
          rw [h2, hq]
          simp
      | true =>
        rcases hg : getShuffled p st with ⟨o, stg⟩
        cases o with
        | none =>
          rw [getQ, if_neg hemp] at h
          simp only [hshuffle, if_true, hg] at h
          simp at h
        | some tr =>
          obtain ⟨hlen, hloop⟩ := getShuffled_some p st tr stg hg
          have h1 : (getQ p st).1 = some (incPlay tr) := by
            simp [getQ, hemp, hshuffle, hg, pushHistory]
          rw [h1] at h
          obtain rfl := Option.some.inj h
          constructor
          · intro hl
            have hl1 : stg.loopMode = .lmSingle := by rw [hloop, hl]
            have h2 : (getQ p st).2.queue = stg.queue ++ [incPlay tr] := by
              simp [getQ, hemp, hshuffle, hg, pushHistory, hl1]
            rw [h2]
            refine ⟨by simp; omega, List.getLast?_concat _⟩
          · intro hl
            have hl1 : ¬ stg.loopMode = .lmSingle := by
              rw [hloop, hl]
              simp
            have h2 : (getQ p st).2.queue = stg.queue := by
              simp [getQ, hemp, hshuffle, hg, pushHistory, hl1]
            rw [h2]
            exact hlen
  · intro p t st hmode hlen
    have hput : ¬ st.maxSize ≤ st.queue.length := Nat.not_le.mpr hlen
    have hft : finishTrack p (some t) false st = putQ p t st := by
      rcases hmode with hl | hl <;> simp [finishTrack, hl]
    rw [hft]
    by_cases hsh : st.shuffle = true
    · refine ⟨regen p { st with queue := st.queue ++ [t], totalAdded := st.totalAdded + 1 }, ?_, by simp [regen]⟩
      simp [putQ, hput, hsh]
    · refine ⟨{ st with queue := st.queue ++ [t], totalAdded := st.totalAdded + 1 }, ?_, by simp⟩
      simp [putQ, hput, hsh]

/-- Witness for `claim1_loop_reinsertion_amended` at a concrete two-track
single-loop queue: the size is preserved and the dequeued track sits at the
tail. -/
theorem claim1_witness :
    (getQ [] { AQ.fresh 10 with queue := [tA, tB], loopMode := .lmSingle }).2.queue.length =
      ({ AQ.fresh 10 with queue := [tA, tB], loopMode := .lmSingle } : AQ).queue.length ∧
    (getQ [] { AQ.fresh 10 with queue := [tA, tB], loopMode := .lmSingle }).2.queue.getLast? =
      some (incPlay tA) :=
  (claim1_loop_reinsertion_amended.1 []
    { AQ.fresh 10 with queue := [tA, tB], loopMode := .lmSingle }
    (incPlay tA) rfl).1 rfl

/-- C4 (counterexample): in loop mode `single` with two queued tracks, the
re-insertion happens at the tail, so consecutive `get` calls return different
tracks (`A` then `B`), not the same track on every call. -/
theorem claim4_counterexample :
    ((getQ [] { AQ.fresh 10 with queue := [tA, tB], loopMode := .lmSingle }).1).map
        Track.audio_url = some "urlA" ∧
    ((getQ []
        (getQ [] { AQ.fresh 10 with queue := [tA, tB], loopMode := .lmSingle }).2).1).map
        Track.audio_url = some "urlB" ∧
    ¬ ((getQ []
        (getQ [] { AQ.fresh 10 with queue := [tA, tB], loopMode := .lmSingle }).2).1).map
        Track.audio_url = some "urlA" := by
  refine ⟨rfl, rfl, by decide⟩

/-- One `get` step on a singleton queue in loop mode `single`, shuffle off:
the one track comes back (play count bumped) and is the whole queue again. -/
theorem getQ_single_singleton (p : List Nat) (a : Track) (st : AQ)
    (hs : st.shuffle = false) (hl : st.loopMode = .lmSingle)
    (hq : st.queue = [a]) :
    (getQ p st).1 = some (incPlay a) ∧ (getQ p st).2.queue = [incPlay a] ∧
    (getQ p st).2.shuffle = false ∧ (getQ p st).2.loopMode = .lmSingle := by
  simp [getQ, hq, hs, hl, pushHistory]

/-- C4 (amended): with loop mode `single`, *shuffle off and exactly one
queued track*, `get()` returns that same track (same `audio_url`, which is
Python track equality) on every call, indefinitely. -/
theorem claim4_single_loop_amended (p : List Nat) (a : Track) (st : AQ)
    (hs : st.shuffle = false) (hl : st.loopMode = .lmSingle)
    (hq : st.queue = [a]) :
    ∀ n, ∀ o ∈ (getsN p n st).1, ∃ t, o = some t ∧ t.audio_url = a.audio_url := by
  intro n
  induction n generalizing a st with
  | zero => intro o ho; simp [getsN] at ho
  | succ n ih =>
    intro o ho
    obtain ⟨h1, h2, h3, h4⟩ := getQ_single_singleton p a st hs hl hq
    simp only [getsN, List.mem_cons] at ho
    rcases ho with ho | ho
    · exact ⟨incPlay a, by rw [ho, h1], rfl⟩
    · obtain ⟨t, ht, hurl⟩ := ih (incPlay a) (getQ p st).2 h3 h4 h2 o ho
      exact ⟨t, ht, hurl⟩

/-- Witness for `claim4_single_loop_amended`: the second of two `get` calls
on the singleton single-loop queue `[A]` still returns a track with `A`'s
URL. -/
theorem claim4_witness :
    ∃ t, ((getsN [] 2 { AQ.fresh 10 with queue := [tA], loopMode := .lmSingle }).1).getD
        1 none = some t ∧ t.audio_url = tA.audio_url :=
  claim4_single_loop_amended []
    tA { AQ.fresh 10 with queue := [tA], loopMode := .lmSingle } rfl rfl rfl 2
    _ (by decide)

/-- C3 (counterexample): an `import_state` carrying a 2-track snapshot into
a `max_size = 1` queue does not fail with `QueueError` as the claim
requires: the call never returns at all (the nested `self._lock`
acquisition inside the awaited `clear()` deadlocks), so `import_state`
neither completes under the bound nor raises. -/
theorem claim3_counterexample :
    importStateQ []
        ⟨[Track.toDict tA, Track.toDict tB], [], false, .lmNone, [], 0, 2, 0, 0⟩
        (AQ.fresh 1) = none :=
  rfl

/-- C3 (amended): `put`, `put_many`, `add_to_front` and `duplicate_track`
preserve `size ≤ max_size`, and an insertion that would violate it fails with
`QueueError` before any mutation (so the queue is left unchanged);
`import_state`, however, never completes on any input — it deadlocks on its
nested lock acquisition — so it neither enforces the bound nor fails with
`QueueError` (and the unreachable body after the deadlock contains no
capacity check either). -/
theorem claim3_capacity_invariant_amended (p : List Nat) (st : AQ) :
    (∀ (s : ExportState) (st0 : AQ), importStateQ p s st0 = none) ∧
    (∀ t st', putQ p t st = .ok st' → st'.queue.length ≤ st'.maxSize) ∧
    (∀ ts st', putMany p ts st = .ok st' → st'.queue.length ≤ st'.maxSize) ∧
    (∀ t st', addToFront p t st = .ok st' → st'.queue.length ≤ st'.maxSize) ∧
    (∀ i st', duplicateTrack p i st = .ok st' → st'.queue.length ≤ st'.maxSize) ∧
    (∀ t, st.queue.length = st.maxSize →
      putQ p t st = .error "Queue is full" ∧
      addToFront p t st = .error "Queue is full") := by
  refine ⟨?_, ?_, ?_, ?_, ?_, ?_⟩
  · intro s st0
    rfl
  · intro t st' h
    unfold putQ at h
    split at h
    · exact absurd h (by simp)
    · rename_i hfull
      cases h
      split <;> simp [regen] <;> omega
  · intro ts st' h
    unfold putMany at h
    split at h
    · exact absurd h (by simp)
    · rename_i hfull
      cases h
      split <;> simp [regen] <;> omega
  · intro t st' h
    unfold addToFront at h
    split at h
    · exact absurd h (by simp)
    · rename_i hfull
      cases h
      split <;> simp [regen] <;> omega
  · intro i st' h
    unfold duplicateTrack at h
    dsimp only at h
    split at h <;>
      [skip; skip] <;>
      · split at h
        · simp at h
        · split at h
          · simp at h
          · cases h
            split <;> simp [regen, List.length_take, List.length_drop] <;> omega
  · intro t hfull
    constructor
    · simp [putQ, hfull]
    · simp [addToFront, hfull]

/-- Witness for `claim3_capacity_invariant_amended`: a full queue
(`size = max_size = 1`) rejects `put` with `QueueError`. -/
theorem claim3_witness :
    putQ [] tB { AQ.fresh 1 with queue := [tA] } = .error "Queue is full" :=
  ((claim3_capacity_invariant_amended []
    { AQ.fresh 1 with queue := [tA] }).2.2.2.2.2 tB rfl).1

/-- C6 (code bug): `import_state` can never complete.  It enters
`async with self._lock` and then awaits `self.clear()`, whose own
`async with self._lock` tries to acquire the same non-reentrant
`asyncio.Lock` a second time in the same task — the coroutine blocks
forever.  Evaluated here at a concrete snapshot (the export of a one-track
queue) imported into a fresh queue: the modelled call yields `none`
(no result is ever produced), so the round-trip law cannot hold as coded. -/
theorem claim6_import_state_deadlocks :
    importStateQ [] (exportStateQ 0 { AQ.fresh 2 with queue := [tA] })
      (AQ.fresh 2) = none :=
  rfl

/-- C2 (code bug): shuffle consumes a permutation generated against the
queue *before* any removals but indexes it into the *shrinking* list.  With
queue `[A, B]` and the regenerated permutation `[0, 1]` (a valid permutation
of `range 2`), the first `get` returns `A`, and the second `get` of the full
pass returns `none` even though `B` is still in the queue — so the pass does
not return every track exactly once. -/
theorem claim2_shuffle_pass_skips_track :
    List.Perm [0, 1] (List.range 2) ∧
    (getQ [] { AQ.fresh 10 with
        queue := [tA, tB], shuffle := true, shuffleIndices := [0, 1] }).1 =
      some (incPlay tA) ∧
    (getQ [] (getQ [] { AQ.fresh 10 with
        queue := [tA, tB], shuffle := true, shuffleIndices := [0, 1] }).2).1 =
      none ∧
    (getQ [] (getQ [] { AQ.fresh 10 with
        queue := [tA, tB], shuffle := true, shuffleIndices := [0, 1] }).2).2.queue =
      [tB] :=
  ⟨by decide, rfl, rfl, rfl⟩

/-- C9 (counterexample): with a permit pool of size 1 and 1 active stream,
the stream count exceeds half the pool (2·1 > 1), yet `adapt_bitrate` keeps
the 256 kbps default — the code's threshold is `max(1, procs // 2)`, not
half the pool. -/
theorem claim9_counterexample :
    adaptBitrate true 1 1 = 256000 ∧ 2 * 1 > 1 ∧
    ¬ adaptBitrate true 1 1 = 128000 := by
  decide

/-- C9 (amended): after `adapt_bitrate` the shared bitrate is 128 kbps
exactly when `streams_active > max(1, max_ffmpeg_procs // 2)` and 256 kbps
otherwise; for pool sizes of at least 2 this threshold coincides with "more
than half the pool" (the clamp to 1 only matters for a pool of size ≤ 1). -/
theorem claim9_threshold_amended (procs streams : Nat) (h2 : 2 ≤ procs) :
    (adaptBitrate true procs streams = 128000 ↔ procs < 2 * streams) ∧
    (adaptBitrate true procs streams = 256000 ↔ 2 * streams ≤ procs) := by
  have hmax : Nat.max 1 (procs / 2) = procs / 2 :=
    Nat.max_eq_right (by omega)
  unfold adaptBitrate
  rw [hmax]
  by_cases hc : procs / 2 < streams
  · simp [hc]
    omega
  · simp [hc]
    omega

/-- Witness for `claim9_threshold_amended`: pool 4, 3 active streams →
128 kbps, since 4 < 2·3. -/
theorem claim9_witness :
    2 ≤ 4 ∧ (adaptBitrate true 4 3 = 128000 ↔ 4 < 2 * 3) :=
  ⟨by decide, (claim9_threshold_amended 4 3 (by decide)).1⟩

/-- An equalizer gains dict containing an out-of-range gain fails
`validate_params` (on its first offending entry). -/
theorem validateGains_error_of_mem (l : List (Int × Rat)) (freq : Int) (g : Rat)
    (hmem : (freq, g) ∈ l) (hbad : g < -20 ∨ 20 < g) :
    ∃ msg, validateGains l = .error msg := by
  induction l with
  | nil => simp at hmem
  | cons e rest ih =>
    obtain ⟨f', g'⟩ := e
    unfold validateGains
    by_cases h1 : f' ≤ 0
    · exact ⟨_, by rw [if_pos h1]⟩
    · by_cases h2 : g' < -20 ∨ 20 < g'
      · exact ⟨_, by rw [if_neg h1, if_pos h2]⟩
      · rcases List.mem_cons.mp hmem with heq | hmem'
        · obtain ⟨rfl, rfl⟩ := Prod.mk.injEq .. ▸ heq
          exact absurd hbad h2
        · obtain ⟨msg, hm⟩ := ih hmem'
          exact ⟨msg, by rw [if_neg h1, if_neg h2]; exact hm⟩

/-- The entry just written by a dict assignment is present. -/
theorem mem_dictSet (k : Int) (v : Rat) : ∀ l, (k, v) ∈ dictSet k v l := by
  intro l
  induction l with
  | nil => simp [dictSet]
  | cons e rest ih =>
    obtain ⟨k', v'⟩ := e
    unfold dictSet
    split
    · exact List.mem_cons_self _ _
    · exact List.mem_cons_of_mem _ ih

/-- Looking up the key just written returns the written value. -/
theorem dictGet_dictSet (k : Int) (v : Rat) :
    ∀ l, dictGet k (dictSet k v l) = some v := by
  intro l
  induction l with
  | nil => simp [dictSet, dictGet]
  | cons e rest ih =>
    obtain ⟨k', v'⟩ := e
    unfold dictSet
    split
    · simp [dictGet]
    · rename_i hk
      simpa [dictGet, hk] using ih

/-- C5 (amended): an out-of-range value passed to `Equalizer.set_band`,
`Nightcore.set_pitch` or `Nightcore.set_tempo` makes the call fail with
`FilterError`, but the mutation has already been committed when validation
runs: after the failed call the filter holds the new out-of-range value (the
mutation is not rolled back). -/
theorem claim5_validation_after_mutation_amended :
    (∀ (f : Nightcore) (v : Rat), v < 1 / 2 ∨ 2 < v →
      (∃ msg, (Nightcore.setPitch v f).1 = .error msg) ∧
      (Nightcore.setPitch v f).2.pitch = v) ∧
    (∀ (f : Nightcore) (v : Rat), v < 1 / 2 ∨ 2 < v →
      (∃ msg, (Nightcore.setTempo v f).1 = .error msg) ∧
      (Nightcore.setTempo v f).2.tempo = v) ∧
    (∀ (e : Equalizer) (freq : Int) (g : Rat), g < -20 ∨ 20 < g →
      (∃ msg, (Equalizer.setBand freq g e).1 = .error msg) ∧
      dictGet freq (Equalizer.setBand freq g e).2.gains = some g) := by
  refine ⟨?_, ?_, ?_⟩
  · intro f v hv
    have hcond : ¬ ((1 : Rat) / 2 ≤ v ∧ v ≤ 2) := by
      rcases hv with h | h <;> intro hc <;> rcases hc with ⟨hc1, hc2⟩ <;> linarith
    refine ⟨⟨"Pitch out of range", ?_⟩, rfl⟩
    unfold Nightcore.setPitch Nightcore.validate
    dsimp only
    rw [if_pos hcond]
  · intro f v hv
    have hcond : ¬ ((1 : Rat) / 2 ≤ v ∧ v ≤ 2) := by
      rcases hv with h | h <;> intro hc <;> rcases hc with ⟨hc1, hc2⟩ <;> linarith
    refine ⟨?_, rfl⟩
    unfold Nightcore.setTempo Nightcore.validate
    dsimp only
    by_cases hp : ¬ ((1 : Rat) / 2 ≤ f.pitch ∧ f.pitch ≤ 2)
    · exact ⟨_, by rw [if_pos hp]⟩
    · exact ⟨_, by rw [if_neg hp, if_pos hcond]⟩
  · intro e freq g hg
    refine ⟨?_, by simp [Equalizer.setBand, dictGet_dictSet]⟩
    simpa [Equalizer.setBand] using
      validateGains_error_of_mem (dictSet freq g e.gains) freq g
        (mem_dictSet freq g e.gains) hg

/-- C5 (counterexample): `set_pitch(3.0)` on a default `Nightcore` raises
`FilterError`, yet afterwards the filter's pitch is 3, not the 1.2 it held
before the call — the parameters are not left as they were. -/
theorem claim5_counterexample :
    (Nightcore.setPitch 3 Nightcore.default).1 = .error "Pitch out of range" ∧
    (Nightcore.setPitch 3 Nightcore.default).2.pitch = 3 ∧
    ¬ (Nightcore.setPitch 3 Nightcore.default).2 = Nightcore.default := by
  refine ⟨?_, rfl, fun h => ?_⟩
  · norm_num [Nightcore.setPitch, Nightcore.validate]
  · have hp := congrArg Nightcore.pitch h
    simp [Nightcore.setPitch, Nightcore.default] at hp
    norm_num at hp

/-- Witness for `claim5_validation_after_mutation_amended` at
`set_pitch(3.0)` on the default `Nightcore`. -/
theorem claim5_witness :
    (∃ msg, (Nightcore.setPitch 3 Nightcore.default).1 = .error msg) ∧
    (Nightcore.setPitch 3 Nightcore.default).2.pitch = 3 :=
  claim5_validation_after_mutation_amended.1 Nightcore.default 3
    (Or.inr (by norm_num))

/-- Stable insertion is a permutation with the inserted element on top. -/
theorem insertF_perm (f : Filter) (l : List Filter) :
    List.Perm (insertF f l) (f :: l) := by
  induction l with
  | nil => exact List.Perm.refl _
  | cons g gs ih =>
    unfold insertF
    split
    · exact (ih.cons g).trans (List.Perm.swap f g gs)
    · exact List.Perm.refl _

/-- `_sort_filters` permutes the chain. -/
theorem sortFilters_perm (l : List Filter) : List.Perm (sortFilters l) l := by
  have h : ∀ (l acc : List Filter),
      List.Perm (List.foldl (fun acc f => insertF f acc) acc l) (acc ++ l) := by
    intro l
    induction l with
    | nil => intro acc; simp
    | cons f fs ih =>
      intro acc
      have h1 := ih (insertF f acc)
      have h2 : List.Perm (insertF f acc ++ fs) ((f :: acc) ++ fs) :=
        (insertF_perm f acc).append_right fs
      have h3 : List.Perm ((f :: acc) ++ fs) (acc ++ f :: fs) := by
        have hmid : List.Perm (acc ++ f :: fs) (f :: (acc ++ fs)) := List.perm_middle
        simpa using hmid.symm
      exact (h1.trans h2).trans h3
  simpa [sortFilters] using h l []

/-- `remove_filter` only drops elements. -/
theorem removeF_sublist (n : String) (l : List Filter) :
    (removeF n l).Sublist l := by
  induction l with
  | nil => simp [removeF]
  | cons g gs ih =>
    unfold removeF
    split
    · exact List.sublist_cons_self g gs
    · exact ih.cons₂ g

/-- Under unique names, `remove_filter n` leaves no filter named `n`. -/
theorem removeF_name_ne (n : String) (l : List Filter)
    (h : (l.map Filter.name).Nodup) : ∀ g ∈ removeF n l, g.name ≠ n := by
  induction l with
  | nil => simp [removeF]
  | cons g gs ih =>
    simp only [List.map_cons, List.nodup_cons] at h
    obtain ⟨hg, hgs⟩ := h
    intro x hx
    unfold removeF at hx
    split at hx
    · rename_i hname
      have hn : g.name = n := by simpa using hname
      intro hxn
      exact hg (by
        have hm : x.name ∈ gs.map Filter.name := List.mem_map_of_mem _ hx
        rwa [hxn, ← hn] at hm)
    · rename_i hname
      rcases List.mem_cons.mp hx with rfl | hx'
      · simpa using hname
      · exact ih hgs x hx'

/-- If filtering leaves exactly `[f]`, then `find?` returns `f`. -/
theorem find?_of_filter_singleton (p : Filter → Bool) (f : Filter) :
    ∀ l : List Filter, l.filter p = [f] → l.find? p = some f := by
  intro l
  induction l with
  | nil => simp
  | cons x xs ih =>
    intro h
    by_cases hp : p x
    · rw [List.filter_cons_of_pos hp] at h
      obtain ⟨rfl, -⟩ := List.cons_eq_cons.mp h
      exact List.find?_cons_of_pos _ hp
    · rw [List.filter_cons_of_neg (by simpa using hp)] at h
      rw [List.find?_cons_of_neg _ (by simpa using hp)]
      exact ih h

/-- C7: adding a filter under an already-present name leaves exactly one
filter of that name — the newly added one — and name-uniqueness of the chain
is preserved; `get_combined_args` follows ascending priority regardless of
insertion order: adding Nightcore (priority 20, fragment `sNc`) and then
Equalizer (priority 10, fragment `sEq`) produces the chain sorted
equalizer-first and the combined option string `-af sEq,sNc` with the
equalizer fragment preceding the nightcore fragment. -/
theorem claim7_chain_unique_name_and_priority_order :
    (∀ (f : Filter) (chain : List Filter), (chain.map Filter.name).Nodup →
      (addFilter f chain).filter (fun g => g.name == f.name) = [f] ∧
      getFilter f.name (addFilter f chain) = some f ∧
      ((addFilter f chain).map Filter.name).Nodup) ∧
    (∀ sEq sNc : String, sEq ≠ "" → sNc ≠ "" →
      addFilter ⟨"equalizer", true, 10, ⟨none, none, some sEq⟩⟩
          (addFilter ⟨"nightcore", true, 20, ⟨none, none, some sNc⟩⟩ []) =
        [⟨"equalizer", true, 10, ⟨none, none, some sEq⟩⟩,
          ⟨"nightcore", true, 20, ⟨none, none, some sNc⟩⟩] ∧
      (getCombinedArgs (addFilter ⟨"equalizer", true, 10, ⟨none, none, some sEq⟩⟩
          (addFilter ⟨"nightcore", true, 20, ⟨none, none, some sNc⟩⟩ []))).options =
        some ("-af " ++ (sEq ++ "," ++ sNc))) := by
  constructor
  · intro f chain hnd
    have hperm : List.Perm (addFilter f chain) (removeF f.name chain ++ [f]) :=
      sortFilters_perm _
    have hbase : (removeF f.name chain ++ [f]).filter
        (fun g => g.name == f.name) = [f] := by
      rw [List.filter_append]
      have h1 : (removeF f.name chain).filter (fun g => g.name == f.name) = [] := by
        rw [List.filter_eq_nil_iff]
        intro g hg
        simpa using removeF_name_ne f.name chain hnd g hg
      rw [h1]
      simp
    have hfil : (addFilter f chain).filter (fun g => g.name == f.name) = [f] := by
      have hp := hperm.filter (fun g => g.name == f.name)
      rw [hbase] at hp
      exact List.perm_singleton.mp hp
    refine ⟨hfil, find?_of_filter_singleton _ f _ hfil, ?_⟩
    have hnd2 : ((removeF f.name chain ++ [f]).map Filter.name).Nodup := by
      rw [List.map_append, List.nodup_append]
      refine ⟨hnd.sublist ((removeF_sublist f.name chain).map Filter.name),
        by simp, ?_⟩
      intro x hx hxf
      obtain ⟨g, hg, rfl⟩ := List.mem_map.mp hx
      have : g.name = f.name := by simpa using hxf
      exact removeF_name_ne f.name chain hnd g hg this
    exact (hperm.map Filter.name).nodup_iff.mpr hnd2
  · intro sEq sNc hEq hNc
    refine ⟨rfl, ?_⟩
    simp [getCombinedArgs, strTruthy, pyJoin, addFilter, removeF, sortFilters,
      insertF, hEq, hNc]

/-- Witness for `claim7_chain_unique_name_and_priority_order`, with concrete
fragments and a concrete one-filter chain. -/
theorem claim7_witness :
    getFilter "equalizer"
        (addFilter ⟨"equalizer", true, 10, ⟨none, none, some "eqfrag"⟩⟩
          [⟨"nightcore", true, 20, ⟨none, none, some "ncfrag"⟩⟩]) =
      some ⟨"equalizer", true, 10, ⟨none, none, some "eqfrag"⟩⟩ ∧
    (getCombinedArgs (addFilter ⟨"equalizer", true, 10, ⟨none, none, some "eqfrag"⟩⟩
        (addFilter ⟨"nightcore", true, 20, ⟨none, none, some "ncfrag"⟩⟩ []))).options =
      some ("-af " ++ ("eqfrag" ++ "," ++ "ncfrag")) :=
  ⟨(claim7_chain_unique_name_and_priority_order.1
      ⟨"equalizer", true, 10, ⟨none, none, some "eqfrag"⟩⟩
      [⟨"nightcore", true, 20, ⟨none, none, some "ncfrag"⟩⟩] (by decide)).2.1,
    (claim7_chain_unique_name_and_priority_order.2 "eqfrag" "ncfrag"
      (by decide) (by decide)).2⟩

/-- The trim loop is a no-op when the order list is within capacity. -/
theorem trimCache_noop (n : Nat) (st : CacheState)
    (h : st.order.length ≤ st.cacheSize) : trimCache n st = st := by
  cases n <;> simp [trimCache, Nat.not_lt.mpr h]

/-- C10: `cache_track` on a track whose canonical key is already cached
returns with the cache and the eviction order untouched (no entry update, no
position refresh); a fresh key below capacity is appended to both; and a
fresh key at capacity evicts exactly the front of the order list — the
first-inserted key — so eviction is strictly insertion order. -/
theorem claim10_cache_insertion_order_eviction (t : Track)
    (extra : List (String × String)) (st : CacheState) :
    (st.cache.any (fun kv => kv.1 == canonicalKey t) = true →
      cacheTrack t extra st = st) ∧
    (st.cache.any (fun kv => kv.1 == canonicalKey t) = false →
      st.order.length < st.cacheSize →
      (cacheTrack t extra st).order = st.order ++ [canonicalKey t] ∧
      (cacheTrack t extra st).cache =
        st.cache ++ [(canonicalKey t, ⟨t.toDict, extra⟩)]) ∧
    (st.cache.any (fun kv => kv.1 == canonicalKey t) = false →
      st.order.length = st.cacheSize → 1 ≤ st.cacheSize →
      (cacheTrack t extra st).order = st.order.tail ++ [canonicalKey t]) := by
  refine ⟨?_, ?_, ?_⟩
  · intro h
    simp [cacheTrack, h]
  · intro h hlt
    unfold cacheTrack
    dsimp only
    rw [h, if_neg (by simp)]
    rw [trimCache_noop]
    · exact ⟨rfl, rfl⟩
    · simp
      omega
  · intro h heq h1
    obtain ⟨k, rest, hor⟩ : ∃ k rest, st.order = k :: rest := by
      cases ho : st.order with
      | nil => rw [ho] at heq; simp at heq; omega
      | cons k rest => exact ⟨k, rest, rfl⟩
    rw [hor] at heq
    simp only [List.length_cons] at heq
    unfold cacheTrack
    dsimp only
    rw [h, if_neg (by simp), hor]
    have hlen : ((k :: rest) ++ [canonicalKey t]).length = rest.length + 1 + 1 := by
      simp
    rw [hlen]
    unfold trimCache
    rw [if_pos (by simp; omega)]
    simp only [List.cons_append]
    rw [trimCache_noop]
    · simp
    · simp
      omega

/-- Witness for `claim10_cache_insertion_order_eviction`: a repeated
`cache_track` with an already-cached key leaves the cache state identical. -/
theorem claim10_witness :
    cacheTrack tA [] ⟨[("urlA", ⟨Track.toDict tA, []⟩)], ["urlA"], 2⟩ =
      ⟨[("urlA", ⟨Track.toDict tA, []⟩)], ["urlA"], 2⟩ :=
  (claim10_cache_insertion_order_eviction tA []
    ⟨[("urlA", ⟨Track.toDict tA, []⟩)], ["urlA"], 2⟩).1 (by decide)

end Oscillate
